import Mathlib

/-!
Verification development for the twitch-presence-tracker repository.

The definitions below are a shallow embedding of the presence
reconciliation core: the SQLite-backed session store (`src/store.js`),
the per-tenant reconciliation tick and token refresh (`src/index.js`),
the deduplicating enrichment queue (`src/enrich.js`), and the paginated
chatters fetch (`src/twitch.js`).  Timestamps are modelled as `Int`
(JavaScript millisecond epoch values), usernames and channels as
`String`, and external network calls as explicit oracle inputs that
either return a value or an error.
-/

namespace Tracker

/-! ### Store (src/store.js)

The `events` table is append-only; the `sessions` table keeps one row
per visit, rows are appended in insertion order (AUTOINCREMENT id).
-/

inductive EventKind where
  | join
  | leave
deriving DecidableEq

structure EventRow where
  username : String
  kind : EventKind
  ts : Int
  channel : String
deriving DecidableEq

structure SessionRow where
  username : String
  joined_at : Int
  left_at : Option Int
  duration_sec : Option Int
  channel : String
deriving DecidableEq

structure Store where
  events : List EventRow
  sessions : List SessionRow
deriving DecidableEq

/-- A session row is open for channel `c`: `left_at IS NULL AND channel_login = c`. -/
def isOpenRow (r : SessionRow) (c : String) : Bool :=
  r.left_at.isNone && r.channel == c

/-- A session row is the open session of `(c, u)`:
`username = u AND left_at IS NULL AND channel_login = c`. -/
def isOpenFor (r : SessionRow) (u c : String) : Bool :=
  isOpenRow r c && r.username == u

/-- Usernames of the open session rows of channel `c`, in row order
(the projection read by `getOpenSet`). -/
def openUsers (rows : List SessionRow) (c : String) : List String :=
  (rows.filter (fun r => isOpenRow r c)).map (fun r => r.username)

/-- The `joined_at` values of the open rows of `(c, u)`; the SQL
`SELECT joined_at ... WHERE ... ORDER BY joined_at DESC LIMIT 1` in
`eventLeave` reads the maximum of this list. -/
def openJoins (rows : List SessionRow) (u c : String) : List Int :=
  (rows.filter (fun r => isOpenFor r u c)).map (fun r => r.joined_at)

/-- Maximum of a list of integers, `none` on the empty list (the result
of the `ORDER BY joined_at DESC LIMIT 1` lookup). -/
def listMax? : List Int → Option Int
  | [] => none
  | j :: rest =>
    some (match listMax? rest with
          | none => j
          | some m => max j m)

/-- The clamp `Math.max(0, Math.floor((ts - joined_at) / 1000))` from `eventLeave`. -/
def durationSec (joined ts : Int) : Int :=
  max 0 ((ts - joined).fdiv 1000)

/-- The UPDATE of `closeSession`: set `left_at` and `duration_sec`. -/
def closeRow (r : SessionRow) (ts : Int) : SessionRow :=
  { r with left_at := some ts, duration_sec := some (durationSec r.joined_at ts) }

/-- Close the first open row of `(c, u)` whose `joined_at` equals `j`
(the row the `ORDER BY joined_at DESC LIMIT 1` UPDATE targets). -/
def closeFirstOpenAt : List SessionRow → String → String → Int → Int → List SessionRow
  | [], _, _, _, _ => []
  | r :: rest, u, c, j, ts =>
    if isOpenFor r u c && r.joined_at == j then closeRow r ts :: rest
    else r :: closeFirstOpenAt rest u c j ts

/-- The call `store.eventJoin(username, ts, channelLogin)`: append a join event
and insert a fresh open session row. -/
def eventJoin (st : Store) (u : String) (ts : Int) (c : String) : Store :=
  { events := st.events ++ [⟨u, EventKind.join, ts, c⟩],
    sessions := st.sessions ++ [⟨u, ts, none, none, c⟩] }

/-- The call `store.eventLeave(username, ts, channelLogin)`: append a leave event;
if an open row of `(c, u)` exists, close the one with the greatest
`joined_at`, with the clamped duration. -/
def eventLeave (st : Store) (u : String) (ts : Int) (c : String) : Store :=
  { events := st.events ++ [⟨u, EventKind.leave, ts, c⟩],
    sessions :=
      match listMax? (openJoins st.sessions u c) with
      | none => st.sessions
      | some j => closeFirstOpenAt st.sessions u c j ts }

/-! ### Basic store lemmas -/

theorem openUsers_nil (c : String) : openUsers [] c = [] := rfl

theorem openUsers_cons (r : SessionRow) (rows : List SessionRow) (c : String) :
    openUsers (r :: rows) c =
      if isOpenRow r c then r.username :: openUsers rows c else openUsers rows c := by
  by_cases h : isOpenRow r c = true
  · simp [openUsers, List.filter_cons, h]
  · simp [openUsers, List.filter_cons, h]

theorem openJoins_cons (r : SessionRow) (rows : List SessionRow) (u c : String) :
    openJoins (r :: rows) u c =
      if isOpenFor r u c then r.joined_at :: openJoins rows u c else openJoins rows u c := by
  by_cases h : isOpenFor r u c = true
  · simp [openJoins, List.filter_cons, h]
  · simp [openJoins, List.filter_cons, h]

theorem openUsers_append (rows rows2 : List SessionRow) (c : String) :
    openUsers (rows ++ rows2) c = openUsers rows c ++ openUsers rows2 c := by
  simp [openUsers, List.filter_append]

/-- The number of open rows of `(c, u)` is the multiplicity of `u` among
the open usernames of channel `c`. -/
theorem count_openUsers_eq_length_openJoins (rows : List SessionRow) (u c : String) :
    (openUsers rows c).count u = (openJoins rows u c).length := by
  induction rows with
  | nil => rfl
  | cons r rest ih =>
    rw [openUsers_cons, openJoins_cons]
    by_cases hopen : isOpenRow r c = true
    · by_cases huser : r.username = u
      · have : isOpenFor r u c = true := by
          simp [isOpenFor, hopen, huser]
        simp [hopen, this, List.count_cons, huser, ih]
      · have : isOpenFor r u c = false := by
          simp [isOpenFor, hopen, huser]
        simp [hopen, this, List.count_cons, huser, ih]
    · have : isOpenFor r u c = false := by
        simp [isOpenFor, hopen]
      simp [hopen, this, ih]

theorem listMax?_eq_none_iff (l : List Int) : listMax? l = none ↔ l = [] := by
  cases l with
  | nil => simp [listMax?]
  | cons j rest => simp [listMax?]

theorem listMax?_mem {l : List Int} {j : Int} (h : listMax? l = some j) : j ∈ l := by
  induction l generalizing j with
  | nil => simp [listMax?] at h
  | cons j0 rest ih =>
    rw [listMax?] at h
    cases hr : listMax? rest with
    | none =>
      rw [hr] at h
      simp at h
      simp [h]
    | some m =>
      rw [hr] at h
      simp at h
      rcases max_choice j0 m with hm | hm
      · rw [hm] at h
        simp [h]
      · rw [hm] at h
        exact List.mem_cons_of_mem _ (h ▸ ih hr)

theorem listMax?_le {l : List Int} {j : Int} (h : listMax? l = some j) :
    ∀ x ∈ l, x ≤ j := by
  induction l generalizing j with
  | nil => simp
  | cons j0 rest ih =>
    rw [listMax?] at h
    intro x hx
    cases hr : listMax? rest with
    | none =>
      rw [hr] at h
      simp at h
      rw [listMax?_eq_none_iff] at hr
      subst hr
      simp at hx
      simp [hx, h]
    | some m =>
      rw [hr] at h
      simp at h
      rcases List.mem_cons.mp hx with hx0 | hxr
      · subst hx0
        exact h ▸ le_max_left _ _
      · exact le_trans (ih hr x hxr) (h ▸ le_max_right _ _)

theorem closeFirstOpenAt_length (rows : List SessionRow) (u c : String) (j ts : Int) :
    (closeFirstOpenAt rows u c j ts).length = rows.length := by
  induction rows with
  | nil => rfl
  | cons r rest ih =>
    rw [closeFirstOpenAt]
    by_cases hcond : (isOpenFor r u c && r.joined_at == j) = true
    · simp [hcond]
    · simp [hcond, ih]

/-- Closing the unique open row of `(c, u)` removes exactly `u` from
the open usernames of channel `c`. -/
theorem openUsers_closeFirstOpenAt {rows : List SessionRow} {u c : String} {j : Int}
    (h : openJoins rows u c = [j]) (ts : Int) :
    openUsers (closeFirstOpenAt rows u c j ts) c = (openUsers rows c).erase u := by
  induction rows with
  | nil => simp [openJoins] at h
  | cons r rest ih =>
    rw [openJoins_cons] at h
    by_cases hfor : isOpenFor r u c = true
    · rw [if_pos hfor] at h
      have hj : r.joined_at = j := (List.cons_eq_cons.mp h).1
      have hrest : openJoins rest u c = [] := (List.cons_eq_cons.mp h).2
      have hcond : (isOpenFor r u c && r.joined_at == j) = true := by
        simp [hfor, hj]
      have hopen : isOpenRow r c = true := by
        have := hfor
        simp [isOpenFor] at this
        exact this.1
      have huser : r.username = u := by
        have := hfor
        simp [isOpenFor] at this
        exact this.2
      rw [closeFirstOpenAt, if_pos hcond]
      have hclosed : isOpenRow (closeRow r ts) c = false := by
        simp [isOpenRow, closeRow]
      rw [openUsers_cons, openUsers_cons, hclosed, hopen]
      simp only [Bool.false_eq_true, if_false, if_true, huser]
      rw [List.erase_cons_head]
    · rw [if_neg hfor] at h
      have hcond : (isOpenFor r u c && r.joined_at == j) = false := by
        simp [hfor]
      rw [closeFirstOpenAt]
      simp only [hcond, Bool.false_eq_true, if_false]
      by_cases hopen : isOpenRow r c = true
      · have huser : r.username ≠ u := by
          intro heq
          apply hfor
          simp [isOpenFor, hopen, heq]
        rw [openUsers_cons, openUsers_cons, hopen]
        simp only [if_true]
        rw [ih h]
        rw [List.erase_cons_tail]
        simp [huser]
      · rw [openUsers_cons, openUsers_cons]
        simp only [hopen, Bool.false_eq_true, if_false]
        exact ih h

/-- The row targeted by `closeSession`: decomposition of the session list
around the first open `(c, u)` row with the maximal `joined_at`. -/
theorem closeFirstOpenAt_split {rows : List SessionRow} {u c : String} {j : Int}
    (hj : j ∈ openJoins rows u c) (ts : Int) :
    ∃ pre r post, rows = pre ++ r :: post ∧
      closeFirstOpenAt rows u c j ts = pre ++ closeRow r ts :: post ∧
      isOpenFor r u c = true ∧ r.joined_at = j := by
  induction rows with
  | nil => simp [openJoins] at hj
  | cons r0 rest ih =>
    by_cases hcond : (isOpenFor r0 u c && r0.joined_at == j) = true
    · refine ⟨[], r0, rest, rfl, ?_, ?_, ?_⟩
      · rw [closeFirstOpenAt, if_pos hcond]
        rfl
      · have := hcond
        simp at this
        exact this.1
      · have := hcond
        simp at this
        exact this.2
    · rw [openJoins_cons] at hj
      have hjrest : j ∈ openJoins rest u c := by
        by_cases hfor : isOpenFor r0 u c = true
        · rw [if_pos hfor] at hj
          rcases List.mem_cons.mp hj with hje | hjr
          · exfalso
            apply hcond
            simp [hfor, hje.symm]
          · exact hjr
        · rw [if_neg hfor] at hj
          exact hj
      obtain ⟨pre, r, post, hsplit, hclose, hfor, hjat⟩ := ih hjrest
      refine ⟨r0 :: pre, r, post, by simp [hsplit], ?_, hfor, hjat⟩
      rw [closeFirstOpenAt]
      simp only [hcond, Bool.false_eq_true, if_false]
      rw [hclose]
      rfl

/-! ### Reconciliation diff (src/index.js, tickOne success path)

`joined = [...next].filter(u => !a.current.has(u))` and
`left = [...a.current].filter(u => !next.has(u))`, then one `eventJoin`
per joined username followed by one `eventLeave` per left username.
-/

def joinedOf (prev next : List String) : List String :=
  next.filter (fun u => !(prev.contains u))

def leftOf (prev next : List String) : List String :=
  prev.filter (fun u => !(next.contains u))

def applyJoins (st : Store) (us : List String) (ts : Int) (c : String) : Store :=
  us.foldl (fun s u => eventJoin s u ts c) st

def applyLeaves (st : Store) (us : List String) (ts : Int) (c : String) : Store :=
  us.foldl (fun s u => eventLeave s u ts c) st

/-- The store mutation performed by a successful tick with snapshot
`next` against previous presence set `prev`. -/
def tickDiffStore (st : Store) (prev next : List String) (ts : Int) (c : String) : Store :=
  applyLeaves (applyJoins st (joinedOf prev next) ts c) (leftOf prev next) ts c

theorem mem_joinedOf (prev next : List String) (u : String) :
    u ∈ joinedOf prev next ↔ u ∈ next ∧ u ∉ prev := by
  simp [joinedOf]

theorem mem_leftOf (prev next : List String) (u : String) :
    u ∈ leftOf prev next ↔ u ∈ prev ∧ u ∉ next := by
  simp [leftOf]

theorem openUsers_eventJoin (st : Store) (u : String) (ts : Int) (c : String) :
    openUsers (eventJoin st u ts c).sessions c = openUsers st.sessions c ++ [u] := by
  rw [eventJoin]
  rw [openUsers_append]
  simp [openUsers, List.filter_cons, isOpenRow]

theorem openUsers_applyJoins (st : Store) (us : List String) (ts : Int) (c : String) :
    openUsers (applyJoins st us ts c).sessions c = openUsers st.sessions c ++ us := by
  induction us generalizing st with
  | nil => simp [applyJoins]
  | cons u rest ih =>
    rw [applyJoins, List.foldl_cons]
    rw [show List.foldl (fun s u => eventJoin s u ts c) (eventJoin st u ts c) rest
          = applyJoins (eventJoin st u ts c) rest ts c from rfl]
    rw [ih, openUsers_eventJoin]
    simp

/-- If `(c, u)` has exactly one open row, `eventLeave` closes it via
`closeFirstOpenAt` at its `joined_at`. -/
theorem sessions_eventLeave_of_unique {st : Store} {u c : String} {j : Int}
    (h : openJoins st.sessions u c = [j]) (ts : Int) :
    (eventLeave st u ts c).sessions = closeFirstOpenAt st.sessions u c j ts := by
  rw [eventLeave]
  rw [h]
  rfl

theorem openUsers_eventLeave_of_unique {st : Store} {u c : String} {j : Int}
    (h : openJoins st.sessions u c = [j]) (ts : Int) :
    openUsers (eventLeave st u ts c).sessions c = (openUsers st.sessions c).erase u := by
  rw [sessions_eventLeave_of_unique h ts]
  exact openUsers_closeFirstOpenAt h ts

theorem mem_foldl_erase (us : List String) (l : List String) (hl : l.Nodup) (x : String) :
    x ∈ us.foldl (fun acc u => acc.erase u) l ↔ x ∈ l ∧ x ∉ us := by
  induction us generalizing l with
  | nil => simp
  | cons u rest ih =>
    rw [List.foldl_cons]
    rw [ih (l.erase u) (hl.erase u)]
    rw [hl.mem_erase_iff]
    constructor
    · rintro ⟨⟨hxu, hxl⟩, hxr⟩
      exact ⟨hxl, by simp [hxu, hxr]⟩
    · rintro ⟨hxl, hxur⟩
      simp at hxur
      exact ⟨⟨hxur.1, hxl⟩, hxur.2⟩

theorem nodup_foldl_erase (us : List String) (l : List String) (hl : l.Nodup) :
    (us.foldl (fun acc u => acc.erase u) l).Nodup := by
  induction us generalizing l with
  | nil => exact hl
  | cons u rest ih =>
    rw [List.foldl_cons]
    exact ih (l.erase u) (hl.erase u)

/-- Applying one `eventLeave` per username in `us` erases exactly those
usernames from the open set, provided each has a unique open row. -/
theorem openUsers_applyLeaves {st : Store} {us : List String} {ts : Int} {c : String}
    (hL : (openUsers st.sessions c).Nodup) (hus : us.Nodup)
    (hsub : ∀ u ∈ us, u ∈ openUsers st.sessions c) :
    openUsers (applyLeaves st us ts c).sessions c =
      us.foldl (fun acc u => acc.erase u) (openUsers st.sessions c) := by
  induction us generalizing st with
  | nil => rfl
  | cons u rest ih =>
    have hu : u ∈ openUsers st.sessions c := hsub u (List.mem_cons_self u rest)
    have hcount : (openUsers st.sessions c).count u = 1 :=
      List.count_eq_one_of_mem hL hu
    rw [count_openUsers_eq_length_openJoins] at hcount
    obtain ⟨j, hj⟩ := List.length_eq_one.mp hcount
    rw [applyLeaves, List.foldl_cons]
    rw [show List.foldl (fun s u => eventLeave s u ts c) (eventLeave st u ts c) rest
          = applyLeaves (eventLeave st u ts c) rest ts c from rfl]
    have hstep : openUsers (eventLeave st u ts c).sessions c =
        (openUsers st.sessions c).erase u := openUsers_eventLeave_of_unique hj ts
    have hrest : ∀ v ∈ rest, v ∈ openUsers (eventLeave st u ts c).sessions c := by
      intro v hv
      rw [hstep, hL.mem_erase_iff]
      refine ⟨?_, hsub v (List.mem_cons_of_mem u hv)⟩
      intro hvu
      exact (List.nodup_cons.mp hus).1 (hvu ▸ hv)
    have := @ih (eventLeave st u ts c) (hstep ▸ hL.erase u)
      (List.nodup_cons.mp hus).2 hrest
    rw [this, hstep, List.foldl_cons]

/-- Reachable-state invariant of a tenant: the open rows of its channel
are exactly its in-memory presence set, one row per user. -/
def StoreInv (st : Store) (prev : List String) (c : String) : Prop :=
  (openUsers st.sessions c).Nodup ∧ prev.Nodup ∧
    ∀ u, u ∈ openUsers st.sessions c ↔ u ∈ prev

/-- One successful tick preserves the invariant, replacing the presence
set with the new snapshot. -/
theorem tickDiffStore_inv {st : Store} {prev : List String} {c : String}
    (hinv : StoreInv st prev c) {next : List String} (hnext : next.Nodup) (ts : Int) :
    StoreInv (tickDiffStore st prev next ts c) next c := by
  obtain ⟨hLnodup, hprev, hmem⟩ := hinv
  have hjoined : (joinedOf prev next).Nodup := hnext.filter _
  have hleft : (leftOf prev next).Nodup := hprev.filter _
  have hdisj : (openUsers st.sessions c).Disjoint (joinedOf prev next) := by
    intro a haL haj
    exact ((mem_joinedOf prev next a).mp haj).2 ((hmem a).mp haL)
  have hL1 : openUsers (applyJoins st (joinedOf prev next) ts c).sessions c =
      openUsers st.sessions c ++ joinedOf prev next := openUsers_applyJoins ..
  have hL1nodup : (openUsers (applyJoins st (joinedOf prev next) ts c).sessions c).Nodup := by
    rw [hL1]
    exact hLnodup.append hjoined hdisj
  have hsub : ∀ u ∈ leftOf prev next,
      u ∈ openUsers (applyJoins st (joinedOf prev next) ts c).sessions c := by
    intro u hu
    rw [hL1]
    exact List.mem_append_left _ ((hmem u).mpr ((mem_leftOf prev next u).mp hu).1)
  have hfinal : openUsers (tickDiffStore st prev next ts c).sessions c =
      (leftOf prev next).foldl (fun acc u => acc.erase u)
        (openUsers (applyJoins st (joinedOf prev next) ts c).sessions c) :=
    openUsers_applyLeaves hL1nodup hleft hsub
  refine ⟨?_, hnext, ?_⟩
  · rw [hfinal]
    exact nodup_foldl_erase _ _ hL1nodup
  · intro u
    rw [hfinal, mem_foldl_erase _ _ hL1nodup u, hL1]
    rw [List.mem_append, mem_joinedOf, mem_leftOf]
    constructor
    · rintro ⟨hin, hnotleft⟩
      rcases hin with hL | ⟨hn, _⟩
      · by_contra hnn
        exact hnotleft ⟨(hmem u).mp hL, hnn⟩
      · exact hn
    · intro hn
      by_cases hp : u ∈ prev
      · exact ⟨Or.inl ((hmem u).mpr hp), fun h => h.2 hn⟩
      · exact ⟨Or.inr ⟨hn, hp⟩, fun h => hp h.1⟩

/-- Successive successful reconciliation ticks: fold `tickDiffStore`
over a list of (snapshot, timestamp) pairs, threading the presence set. -/
def runTicks (sp : Store × List String) (snaps : List (List String × Int)) (c : String) :
    Store × List String :=
  snaps.foldl (fun q p => (tickDiffStore q.1 q.2 p.1 p.2 c, p.1)) sp

theorem runTicks_inv {st : Store} {prev : List String} {c : String}
    (hinv : StoreInv st prev c) {snaps : List (List String × Int)}
    (hnodup : ∀ p ∈ snaps, p.1.Nodup) :
    StoreInv (runTicks (st, prev) snaps c).1 (runTicks (st, prev) snaps c).2 c := by
  induction snaps generalizing st prev with
  | nil => exact hinv
  | cons p rest ih =>
    rw [runTicks, List.foldl_cons]
    exact ih (tickDiffStore_inv hinv (hnodup p (List.mem_cons_self p rest)) p.2)
      (fun q hq => hnodup q (List.mem_cons_of_mem p hq))

theorem runTicks_snd (sp : Store × List String) (snaps : List (List String × Int)) (c : String) :
    (runTicks sp snaps c).2 = (snaps.map Prod.fst).getLastD sp.2 := by
  induction snaps generalizing sp with
  | nil => rfl
  | cons p rest ih =>
    rw [runTicks, List.foldl_cons]
    rw [show List.foldl (fun q p => (tickDiffStore q.1 q.2 p.1 p.2 c, p.1))
          (tickDiffStore sp.1 sp.2 p.1 p.2 c, p.1) rest
          = runTicks (tickDiffStore sp.1 sp.2 p.1 p.2 c, p.1) rest c from rfl]
    rw [ih]
    rw [List.map_cons, List.getLastD_cons]

theorem events_eventJoin (st : Store) (u : String) (ts : Int) (c : String) :
    (eventJoin st u ts c).events = st.events ++ [⟨u, EventKind.join, ts, c⟩] := rfl

theorem events_eventLeave (st : Store) (u : String) (ts : Int) (c : String) :
    (eventLeave st u ts c).events = st.events ++ [⟨u, EventKind.leave, ts, c⟩] := rfl

theorem events_applyJoins (st : Store) (us : List String) (ts : Int) (c : String) :
    (applyJoins st us ts c).events =
      st.events ++ us.map (fun u => ⟨u, EventKind.join, ts, c⟩) := by
  induction us generalizing st with
  | nil => simp [applyJoins]
  | cons u rest ih =>
    rw [applyJoins, List.foldl_cons]
    rw [show List.foldl (fun s u => eventJoin s u ts c) (eventJoin st u ts c) rest
          = applyJoins (eventJoin st u ts c) rest ts c from rfl]
    rw [ih, events_eventJoin]
    simp

theorem events_applyLeaves (st : Store) (us : List String) (ts : Int) (c : String) :
    (applyLeaves st us ts c).events =
      st.events ++ us.map (fun u => ⟨u, EventKind.leave, ts, c⟩) := by
  induction us generalizing st with
  | nil => simp [applyLeaves]
  | cons u rest ih =>
    rw [applyLeaves, List.foldl_cons]
    rw [show List.foldl (fun s u => eventLeave s u ts c) (eventLeave st u ts c) rest
          = applyLeaves (eventLeave st u ts c) rest ts c from rfl]
    rw [ih, events_eventLeave]
    simp

theorem events_tickDiffStore (st : Store) (prev next : List String) (ts : Int) (c : String) :
    (tickDiffStore st prev next ts c).events =
      st.events ++ (joinedOf prev next).map (fun u => ⟨u, EventKind.join, ts, c⟩)
        ++ (leftOf prev next).map (fun u => ⟨u, EventKind.leave, ts, c⟩) := by
  rw [tickDiffStore, events_applyLeaves, events_applyJoins, List.append_assoc]

theorem sessions_applyJoins (st : Store) (us : List String) (ts : Int) (c : String) :
    (applyJoins st us ts c).sessions =
      st.sessions ++ us.map (fun u => ⟨u, ts, none, none, c⟩) := by
  induction us generalizing st with
  | nil => simp [applyJoins]
  | cons u rest ih =>
    rw [applyJoins, List.foldl_cons]
    rw [show List.foldl (fun s u => eventJoin s u ts c) (eventJoin st u ts c) rest
          = applyJoins (eventJoin st u ts c) rest ts c from rfl]
    rw [ih]
    simp [eventJoin]

theorem sessions_length_eventLeave (st : Store) (u : String) (ts : Int) (c : String) :
    (eventLeave st u ts c).sessions.length = st.sessions.length := by
  rw [eventLeave]
  cases h : listMax? (openJoins st.sessions u c) with
  | none => rfl
  | some j => exact closeFirstOpenAt_length ..

theorem sessions_length_applyLeaves (st : Store) (us : List String) (ts : Int) (c : String) :
    (applyLeaves st us ts c).sessions.length = st.sessions.length := by
  induction us generalizing st with
  | nil => rfl
  | cons u rest ih =>
    rw [applyLeaves, List.foldl_cons]
    rw [show List.foldl (fun s u => eventLeave s u ts c) (eventLeave st u ts c) rest
          = applyLeaves (eventLeave st u ts c) rest ts c from rfl]
    rw [ih, sessions_length_eventLeave]

theorem sessions_length_tickDiffStore (st : Store) (prev next : List String) (ts : Int) (c : String) :
    (tickDiffStore st prev next ts c).sessions.length =
      st.sessions.length + (joinedOf prev next).length := by
  rw [tickDiffStore, sessions_length_applyLeaves, sessions_applyJoins]
  simp

theorem mem_closeFirstOpenAt_of_ne {rows : List SessionRow} {u c : String} {j ts : Int}
    {r : SessionRow} (hr : r ∈ rows) (hne : r.username ≠ u) :
    r ∈ closeFirstOpenAt rows u c j ts := by
  induction rows with
  | nil => simp at hr
  | cons r0 rest ih =>
    rw [closeFirstOpenAt]
    by_cases hcond : (isOpenFor r0 u c && r0.joined_at == j) = true
    · rw [if_pos hcond]
      rcases List.mem_cons.mp hr with hr0 | hrr
      · exfalso
        have := hcond
        simp [isOpenFor] at this
        exact hne (hr0 ▸ this.1.2)
      · exact List.mem_cons_of_mem _ hrr
    · rw [if_neg hcond]
      rcases List.mem_cons.mp hr with hr0 | hrr
      · exact hr0 ▸ List.mem_cons_self ..
      · exact List.mem_cons_of_mem _ (ih hrr)

theorem mem_sessions_eventLeave_of_ne {st : Store} {u' : String} {ts : Int} {c : String}
    {r : SessionRow} (hr : r ∈ st.sessions) (hne : r.username ≠ u') :
    r ∈ (eventLeave st u' ts c).sessions := by
  rw [eventLeave]
  cases listMax? (openJoins st.sessions u' c) with
  | none => exact hr
  | some j => exact mem_closeFirstOpenAt_of_ne hr hne

theorem mem_sessions_applyLeaves_of_ne {st : Store} {us : List String} {ts : Int} {c : String}
    {r : SessionRow} (hr : r ∈ st.sessions) (hne : r.username ∉ us) :
    r ∈ (applyLeaves st us ts c).sessions := by
  induction us generalizing st with
  | nil => exact hr
  | cons u rest ih =>
    rw [applyLeaves, List.foldl_cons]
    rw [show List.foldl (fun s u => eventLeave s u ts c) (eventLeave st u ts c) rest
          = applyLeaves (eventLeave st u ts c) rest ts c from rfl]
    have h1 : r ∈ (eventLeave st u ts c).sessions :=
      mem_sessions_eventLeave_of_ne hr (fun h => hne (h ▸ List.mem_cons_self ..))
    exact ih h1 (fun h => hne (List.mem_cons_of_mem _ h))

/-- Every joined username gets a fresh open session row timestamped with
the tick timestamp, and it survives the leave pass of the same tick. -/
theorem joined_row_mem_tickDiffStore {st : Store} {prev next : List String} {ts : Int}
    {c : String} {u : String} (hu : u ∈ joinedOf prev next) :
    (⟨u, ts, none, none, c⟩ : SessionRow) ∈ (tickDiffStore st prev next ts c).sessions := by
  have hmem : (⟨u, ts, none, none, c⟩ : SessionRow) ∈ (applyJoins st (joinedOf prev next) ts c).sessions := by
    rw [sessions_applyJoins]
    exact List.mem_append_right _ (List.mem_map.mpr ⟨u, hu, rfl⟩)
  refine mem_sessions_applyLeaves_of_ne hmem ?_
  intro hleft
  exact ((mem_leftOf prev next u).mp hleft).2 ((mem_joinedOf prev next u).mp hu).1

/-- C1: starting from a store with no open sessions for the channel and
an empty presence set, after any sequence of successful reconciliation
ticks the set of usernames with an open `VisitorSession` row equals the
last applied snapshot, and no username has two open rows. -/
theorem open_sessions_track_snapshots
    (st0 : Store) (c : String) (snaps : List (List String × Int))
    (hopen : openUsers st0.sessions c = [])
    (hnodup : ∀ p ∈ snaps, p.1.Nodup) :
    (openUsers (runTicks (st0, []) snaps c).1.sessions c).Nodup ∧
    (∀ u, u ∈ openUsers (runTicks (st0, []) snaps c).1.sessions c ↔
      u ∈ (runTicks (st0, []) snaps c).2) ∧
    (runTicks (st0, []) snaps c).2 = (snaps.map Prod.fst).getLastD [] := by
  have hinv0 : StoreInv st0 [] c := by
    refine ⟨?_, List.nodup_nil, ?_⟩
    · rw [hopen]
      exact List.nodup_nil
    · intro u
      rw [hopen]
  have h := runTicks_inv hinv0 hnodup
  exact ⟨h.1, h.2.2, runTicks_snd (st0, []) snaps c⟩

/-- Concrete run of C1: snapshots {alice, bob} then {alice}. -/
theorem open_sessions_track_snapshots_witness :
    (openUsers (runTicks (⟨[], []⟩, [])
        [(["alice", "bob"], 1000), (["alice"], 3000)] "ch").1.sessions "ch").Nodup ∧
    ("bob" ∈ openUsers (runTicks (⟨[], []⟩, [])
        [(["alice", "bob"], 1000), (["alice"], 3000)] "ch").1.sessions "ch" ↔
      "bob" ∈ (runTicks (⟨[], []⟩, [])
        [(["alice", "bob"], 1000), (["alice"], 3000)] "ch").2) ∧
    (runTicks (⟨[], []⟩, []) [(["alice", "bob"], 1000), (["alice"], 3000)] "ch").2
      = ["alice"] := by
  have h := open_sessions_track_snapshots ⟨[], []⟩ "ch"
    [(["alice", "bob"], 1000), (["alice"], 3000)] rfl (by decide)
  exact ⟨h.1, h.2.1 "bob", h.2.2.trans (by decide)⟩

/-! ### Enrichment queue (src/enrich.js)

The JS `Set` of pending lowercase usernames is modelled as a duplicate
free list in insertion order; `Set.add` keeps the first insertion.
-/

/-- JS `Set.add`: append unless already present. -/
def setAdd (l : List String) (x : String) : List String :=
  if l.contains x then l else l ++ [x]

/-- The method `enqueue(usernames)`: skip falsy (empty) names, lowercase, insert. -/
def enqueueNames (l : List String) (us : List String) : List String :=
  us.foldl (fun acc u => if u == "" then acc else setAdd acc u.toLower) l

theorem mem_setAdd (l : List String) (x y : String) :
    y ∈ setAdd l x ↔ y ∈ l ∨ y = x := by
  rw [setAdd]
  by_cases h : l.contains x = true
  · rw [if_pos h]
    constructor
    · exact Or.inl
    · rintro (hy | hy)
      · exact hy
      · rw [hy]
        simpa using h
  · rw [if_neg h]
    simp

theorem setAdd_nodup {l : List String} (hl : l.Nodup) (x : String) :
    (setAdd l x).Nodup := by
  rw [setAdd]
  by_cases h : l.contains x = true
  · rw [if_pos h]
    exact hl
  · rw [if_neg h]
    have hx : x ∉ l := by
      intro hmem
      exact h (by simpa using hmem)
    simp [List.nodup_append, hl, hx]

theorem setAdd_of_mem {l : List String} {x : String} (h : x ∈ l) : setAdd l x = l := by
  rw [setAdd, if_pos (show l.contains x = true by simpa using h)]

theorem mem_enqueueNames (l us : List String) (y : String) :
    y ∈ enqueueNames l us ↔ y ∈ l ∨ ∃ u ∈ us, u ≠ "" ∧ y = u.toLower := by
  induction us generalizing l with
  | nil => simp [enqueueNames]
  | cons u rest ih =>
    rw [enqueueNames, List.foldl_cons]
    by_cases hu : u == ""
    · rw [if_pos hu]
      rw [show List.foldl (fun acc u => if u == "" then acc else setAdd acc u.toLower) l rest
            = enqueueNames l rest from rfl]
      rw [ih]
      constructor
      · rintro (hy | ⟨v, hv, hvne, hylow⟩)
        · exact Or.inl hy
        · exact Or.inr ⟨v, List.mem_cons_of_mem _ hv, hvne, hylow⟩
      · rintro (hy | ⟨v, hv, hvne, hylow⟩)
        · exact Or.inl hy
        · rcases List.mem_cons.mp hv with hv0 | hvr
          · exact absurd (hv0 ▸ (by simpa using hu)) hvne
          · exact Or.inr ⟨v, hvr, hvne, hylow⟩
    · rw [if_neg hu]
      rw [show List.foldl (fun acc u => if u == "" then acc else setAdd acc u.toLower)
            (setAdd l u.toLower) rest = enqueueNames (setAdd l u.toLower) rest from rfl]
      rw [ih, mem_setAdd]
      have hune : u ≠ "" := by simpa using hu
      constructor
      · rintro ((hy | hy) | ⟨v, hv, hvne, hylow⟩)
        · exact Or.inl hy
        · exact Or.inr ⟨u, List.mem_cons_self .., hune, hy⟩
        · exact Or.inr ⟨v, List.mem_cons_of_mem _ hv, hvne, hylow⟩
      · rintro (hy | ⟨v, hv, hvne, hylow⟩)
        · exact Or.inl (Or.inl hy)
        · rcases List.mem_cons.mp hv with hv0 | hvr
          · exact Or.inl (Or.inr (hv0 ▸ hylow))
          · exact Or.inr ⟨v, hvr, hvne, hylow⟩

theorem enqueueNames_nodup {l : List String} (hl : l.Nodup) (us : List String) :
    (enqueueNames l us).Nodup := by
  induction us generalizing l with
  | nil => exact hl
  | cons u rest ih =>
    rw [enqueueNames, List.foldl_cons]
    by_cases hu : u == ""
    · rw [if_pos hu]
      exact ih hl
    · rw [if_neg hu]
      exact ih (setAdd_nodup hl u.toLower)

theorem enqueueNames_of_subset {l : List String} {us : List String}
    (h : ∀ u ∈ us, u ≠ "" → u.toLower ∈ l) : enqueueNames l us = l := by
  induction us with
  | nil => rfl
  | cons u rest ih =>
    rw [enqueueNames, List.foldl_cons]
    by_cases hu : u == ""
    · rw [if_pos hu]
      exact ih (fun v hv hvne => h v (List.mem_cons_of_mem _ hv) hvne)
    · rw [if_neg hu]
      rw [setAdd_of_mem (h u (List.mem_cons_self ..) (by simpa using hu))]
      exact ih (fun v hv hvne => h v (List.mem_cons_of_mem _ hv) hvne)

/-- Pending queue plus reentrancy guard of `createEnricher`. -/
structure Enricher where
  queue : List String
  running : Bool
deriving DecidableEq

/-- JavaScript string truthiness for an optional field: present and non-empty. -/
def truthy : Option String → Bool
  | none => false
  | some s => s != ""

/-- JavaScript number truthiness for an optional field: present and non-zero. -/
def intTruthy : Option Int → Bool
  | none => false
  | some n => n != 0

/-- JS `u || null` on an optional string field. -/
def strOr (o : Option String) : Option String :=
  match o with
  | some s => if s == "" then none else some s
  | none => none

/-- One element of the `/users` response consumed by the drain loop. -/
structure UserInfo where
  id : Option String
  login : Option String
  display_name : Option String
  broadcaster_type : Option String
  profile_image_url : Option String
deriving DecidableEq

/-- Row upserted by `store.saveUserProfile`. -/
structure Profile where
  username : String
  user_id : Option String
  display_name : Option String
  broadcaster_type : Option String
  follower_count : Option Int
  profile_image_url : Option String
  updated_at : Int
deriving DecidableEq

/-- External error: optional HTTP status (`err?.response?.status`) and message. -/
structure TwitchError where
  status : Option Nat
  msg : String
deriving DecidableEq

/-- Outcomes of the external calls a drain performs: the batched
`fetchUsersByLogins` and the per-user `fetchFollowerCount`. -/
structure DrainEnv where
  now : Int
  usersResult : List String → Except TwitchError (List UserInfo)
  followerOf : Option String → Except TwitchError (Option Int)

/-- Per-user body of the drain loop: the follower lookup is tried in
isolation, a failure degrades to a null follower count; the profile is
upserted regardless. -/
def processUser (env : DrainEnv) (u : UserInfo) : Profile :=
  { username := (u.login.getD "").toLower,
    user_id := strOr u.id,
    display_name := strOr u.display_name,
    broadcaster_type := strOr u.broadcaster_type,
    follower_count :=
      match env.followerOf u.id with
      | Except.ok cnt => cnt
      | Except.error _ => none,
    profile_image_url := strOr u.profile_image_url,
    updated_at := env.now }

/-- The batch `[...queue].slice(0, 50)`. -/
def drainBatch (q : List String) : List String := q.take 50

/-- The removal loop `for (const u of batch) queue.delete(u)`. -/
def removeBatch (q batch : List String) : List String :=
  q.filter (fun u => !(batch.contains u))

/-- Entry of `drain()`: the reentrancy / empty-queue guard, then the
batch is taken and removed from the pending set before any external
call is issued. `none` models the immediate return. -/
def drainBegin (e : Enricher) : Option (Enricher × List String) :=
  if e.running || e.queue.length == 0 then none
  else some ({ queue := removeBatch e.queue (drainBatch e.queue), running := true },
             drainBatch e.queue)

/-- Rest of `drain()` after the batch was removed: the batched lookup
either fails (the `finally` still clears the guard) or yields users that
are processed one by one. -/
def drainFinish (e : Enricher) (batch : List String) (env : DrainEnv) :
    Enricher × List Profile :=
  match env.usersResult batch with
  | Except.error _ => ({ e with running := false }, [])
  | Except.ok users => ({ e with running := false }, users.map (processUser env))

/-- The whole `drain()` call, atomically. -/
def drain (e : Enricher) (env : DrainEnv) : Enricher × List Profile :=
  match drainBegin e with
  | none => (e, [])
  | some (e1, batch) => drainFinish e1 batch env

/-! ### Token lifecycle and reconciliation tick (src/index.js) -/

/-- Body of the refresh-token exchange response
(`{access_token, refresh_token, expires_in, scope}`). -/
structure Refreshed where
  access_token : String
  refresh_token : Option String
  scope : Option (List String)
  expires_in : Option Int
deriving DecidableEq

/-- Per-tenant auth state (`newSessionAuth()`). -/
structure Auth where
  token : Option String
  refreshToken : Option String
  tokenExpiresAt : Option Int
  moderatorId : Option String
  meLogin : Option String
  tokenScopes : List String
  broadcasterId : Option String
  broadcasterLogin : Option String
  current : List String
  lastPollAt : Option Int
  lastError : Option String
deriving DecidableEq

/-- Observable side effects of the token code paths. -/
inductive Effect where
  | refreshCall
  | persist
deriving DecidableEq

/-- Mutations applied on a successful refresh exchange. -/
def applyRefresh (a : Auth) (now : Int) (r : Refreshed) : Auth :=
  { a with
    token := some r.access_token,
    refreshToken :=
      match r.refresh_token with
      | some x => if x == "" then a.refreshToken else some x
      | none => a.refreshToken,
    tokenScopes :=
      match r.scope with
      | some s => s
      | none => a.tokenScopes,
    tokenExpiresAt := some (now + (r.expires_in.getD 0) * 1000) }

/-- The function `ensureFreshToken(a)`: no-op unless a refresh token and an expiry are
recorded and the expiry is at most 60 s away; otherwise one refresh
exchange, whose failure propagates to the caller. -/
def ensureFreshToken (a : Auth) (now : Int) (refresh : Except TwitchError Refreshed) :
    List Effect × Except TwitchError Auth :=
  if truthy a.refreshToken = false || intTruthy a.tokenExpiresAt = false then
    ([], Except.ok a)
  else if now < a.tokenExpiresAt.getD 0 - 60000 then
    ([], Except.ok a)
  else
    match refresh with
    | Except.ok r => ([Effect.refreshCall, Effect.persist], Except.ok (applyRefresh a now r))
    | Except.error e => ([Effect.refreshCall], Except.error e)

/-- Oracle inputs of one tick: the clock, the refresh exchange inside
`ensureFreshToken`, the chatters fetch, and the refresh exchange of the
401 recovery path. -/
structure TickEnv where
  now : Int
  refresh1 : Except TwitchError Refreshed
  fetch : Except TwitchError (List String)
  refresh2 : Except TwitchError Refreshed

/-- The mutable state a tick touches: the tenant, the store, the pending
enrichment queue. -/
structure World where
  auth : Auth
  store : Store
  queue : List String
deriving DecidableEq

structure TickResult where
  world : World
  tryEffects : List Effect
  catchEffects : List Effect
deriving DecidableEq

/-- The fallible prefix of the `try` block (steps 2 and 3): token refresh
then snapshot fetch.  On error it reports the auth state at the failure
point together with the thrown error. -/
def tickAttempt (a0 : Auth) (now : Int) (refresh1 : Except TwitchError Refreshed)
    (fetch : Except TwitchError (List String)) :
    List Effect × Except (Auth × TwitchError) (Auth × List String) :=
  match ensureFreshToken a0 now refresh1 with
  | (effs, Except.error e) => (effs, Except.error (a0, e))
  | (effs, Except.ok a1) =>
    match fetch with
    | Except.error e => (effs, Except.error (a1, e))
    | Except.ok next => (effs, Except.ok (a1, next))

/-- The `catch` block of `tickOne`: one refresh retry on a 401 when a
refresh token exists, otherwise record the error. -/
def catchTick (a : Auth) (err : TwitchError) (refresh2 : Except TwitchError Refreshed)
    (now : Int) : Auth × List Effect :=
  if err.status == some 401 && truthy a.refreshToken then
    match refresh2 with
    | Except.ok r => (applyRefresh a now r, [Effect.refreshCall, Effect.persist])
    | Except.error e2 => ({ a with lastError := some e2.msg }, [Effect.refreshCall])
  else ({ a with lastError := some err.msg }, [])

/-- Onboarding guard of `tickOne`: client id, token and resolved
identities must all be (truthily) present. -/
def tickPreconds (clientId : Option String) (a : Auth) : Bool :=
  truthy clientId && truthy a.token && truthy a.broadcasterId &&
    truthy a.moderatorId && truthy a.broadcasterLogin

/-- Continuation of `tickOne` on the result of the fallible prefix:
either commit the diff (join/leave rows, enrichment enqueue, replace the
presence set, clear the error) or run the catch block, which never
touches the store, the queue or the presence set. -/
def tickContinue (w : World) (now : Int)
    (res : List Effect × Except (Auth × TwitchError) (Auth × List String))
    (refresh2 : Except TwitchError Refreshed) : TickResult :=
  match res with
  | (effs, Except.error (ae, err)) =>
    ⟨{ w with auth := (catchTick ae err refresh2 now).1 }, effs,
      (catchTick ae err refresh2 now).2⟩
  | (effs, Except.ok (a1, next)) =>
    ⟨⟨{ a1 with current := next, lastError := none },
      tickDiffStore w.store a1.current next now (a1.broadcasterLogin.getD ""),
      if (joinedOf a1.current next).length != 0 || (leftOf a1.current next).length != 0
      then enqueueNames w.queue (joinedOf a1.current next) else w.queue⟩, effs, []⟩

/-- The function `tickOne(a)`: guard, record poll time, attempt refresh + fetch, then
continue with the success or the catch path. -/
def tickOne (clientId : Option String) (w : World) (env : TickEnv) : TickResult :=
  if tickPreconds clientId w.auth = false then ⟨w, [], []⟩
  else tickContinue w env.now
    (tickAttempt { w.auth with lastPollAt := some env.now } env.now env.refresh1 env.fetch)
    env.refresh2

/-! ### Chatters pagination (src/twitch.js, fetchChatters) -/

/-- One `/chat/chatters` response: the `user_login` values of its rows and the
optional `pagination.cursor`. -/
structure Page where
  data : List String
  cursor : Option String

/-- The `first` request parameter of every chatters page request. -/
def chattersPageSize : Nat := 1000

/-- Collect one row: `(row.user_login || '').toLowerCase().trim()`,
skipped when empty, inserted into the set otherwise. -/
def addLogin (s : List String) (raw : String) : List String :=
  if raw.toLower.trim == "" then s else setAdd s raw.toLower.trim

/-- The `for (let i = 0; i < 20; i++)` request loop; `pages k` is the
provider's response to the `k`-th request.  Returns the collected set
and the number of requests issued. -/
def fetchChattersLoop (pages : Nat → Page) : Nat → Nat → List String → List String × Nat
  | _, 0, acc => (acc, 0)
  | i, fuel + 1, acc =>
    let p := pages i
    let acc1 := p.data.foldl addLogin acc
    match p.cursor with
    | none => (acc1, 1)
    | some _ =>
      let res := fetchChattersLoop pages (i + 1) fuel acc1
      (res.1, res.2 + 1)

def fetchChatters (pages : Nat → Page) : List String × Nat :=
  fetchChattersLoop pages 0 20 []

theorem mem_foldl_addLogin {l : List String} {acc : List String} {x : String}
    (h : x ∈ l.foldl addLogin acc) :
    x ∈ acc ∨ ∃ raw ∈ l, x = raw.toLower.trim ∧ ¬(x = "") := by
  induction l generalizing acc with
  | nil => exact Or.inl h
  | cons raw rest ih =>
    rw [List.foldl_cons] at h
    rcases ih h with hacc | ⟨raw2, hraw2, hx⟩
    · rw [addLogin] at hacc
      by_cases he : raw.toLower.trim == ""
      · rw [if_pos he] at hacc
        exact Or.inl hacc
      · rw [if_neg he] at hacc
        rcases (mem_setAdd ..).mp hacc with hacc2 | hxraw
        · exact Or.inl hacc2
        · refine Or.inr ⟨raw, List.mem_cons_self .., hxraw, ?_⟩
          intro hxe
          exact he (by simp [← hxraw, hxe])
    · exact Or.inr ⟨raw2, List.mem_cons_of_mem _ hraw2, hx⟩

theorem nodup_foldl_addLogin {l : List String} {acc : List String} (h : acc.Nodup) :
    (l.foldl addLogin acc).Nodup := by
  induction l generalizing acc with
  | nil => exact h
  | cons raw rest ih =>
    rw [List.foldl_cons]
    refine ih ?_
    rw [addLogin]
    by_cases he : raw.toLower.trim == ""
    · rw [if_pos he]
      exact h
    · rw [if_neg he]
      exact setAdd_nodup h _

theorem fetchChattersLoop_reqs_le (pages : Nat → Page) (i fuel : Nat) (acc : List String) :
    (fetchChattersLoop pages i fuel acc).2 ≤ fuel := by
  induction fuel generalizing i acc with
  | zero => exact Nat.le_refl 0
  | succ n ih =>
    rw [fetchChattersLoop]
    cases (pages i).cursor with
    | none => simp
    | some cur => simpa using Nat.succ_le_succ (ih (i + 1) _)

theorem fetchChattersLoop_reqs_all (pages : Nat → Page)
    (hall : ∀ k, (pages k).cursor.isSome) (i fuel : Nat) (acc : List String) :
    (fetchChattersLoop pages i fuel acc).2 = fuel := by
  induction fuel generalizing i acc with
  | zero => rfl
  | succ n ih =>
    rw [fetchChattersLoop]
    cases hcur : (pages i).cursor with
    | none =>
      exfalso
      have := hall i
      rw [hcur] at this
      simp at this
    | some cur => simp [ih (i + 1)]

theorem fetchChattersLoop_stops (pages : Nat → Page) (i fuel : Nat) (acc : List String) :
    ∀ k, k + 1 < (fetchChattersLoop pages i fuel acc).2 → ((pages (i + k)).cursor).isSome := by
  induction fuel generalizing i acc with
  | zero =>
    intro k hk
    simp [fetchChattersLoop] at hk
  | succ n ih =>
    intro k hk
    rw [fetchChattersLoop] at hk
    cases hcur : (pages i).cursor with
    | none =>
      rw [hcur] at hk
      simp at hk
    | some cur =>
      rw [hcur] at hk
      simp only at hk
      cases k with
      | zero => simp [hcur]
      | succ m =>
        have hmlt : m + 1 < (fetchChattersLoop pages (i + 1) n
            ((pages i).data.foldl addLogin acc)).2 := by omega
        have := ih (i + 1) ((pages i).data.foldl addLogin acc) m hmlt
        rw [show i + (m + 1) = i + 1 + m by omega]
        exact this

theorem fetchChattersLoop_mem (pages : Nat → Page) (i fuel : Nat) (acc : List String) :
    ∀ x ∈ (fetchChattersLoop pages i fuel acc).1,
      x ∈ acc ∨ (¬(x = "") ∧ ∃ k raw, k < fuel ∧ raw ∈ (pages (i + k)).data ∧
        x = raw.toLower.trim) := by
  induction fuel generalizing i acc with
  | zero =>
    intro x hx
    exact Or.inl hx
  | succ n ih =>
    intro x hx
    rw [fetchChattersLoop] at hx
    cases hcur : (pages i).cursor with
    | none =>
      rw [hcur] at hx
      simp only at hx
      rcases mem_foldl_addLogin hx with hacc | ⟨raw, hraw, hxr, hxe⟩
      · exact Or.inl hacc
      · exact Or.inr ⟨hxe, 0, raw, Nat.succ_pos n, by simpa using hraw, hxr⟩
    | some cur =>
      rw [hcur] at hx
      simp only at hx
      rcases ih (i + 1) ((pages i).data.foldl addLogin acc) x hx with hacc | hfound
      · rcases mem_foldl_addLogin hacc with hacc2 | ⟨raw, hraw, hxr, hxe⟩
        · exact Or.inl hacc2
        · exact Or.inr ⟨hxe, 0, raw, Nat.succ_pos n, by simpa using hraw, hxr⟩
      · obtain ⟨hxe, k, raw, hk, hraw, hxr⟩ := hfound
        refine Or.inr ⟨hxe, k + 1, raw, by omega, ?_, hxr⟩
        rw [show i + (k + 1) = i + 1 + k by omega]
        exact hraw

theorem fetchChattersLoop_nodup (pages : Nat → Page) (i fuel : Nat) {acc : List String}
    (h : acc.Nodup) : (fetchChattersLoop pages i fuel acc).1.Nodup := by
  induction fuel generalizing i acc with
  | zero => exact h
  | succ n ih =>
    rw [fetchChattersLoop]
    cases (pages i).cursor with
    | none => exact nodup_foldl_addLogin h
    | some cur => exact ih (i + 1) (nodup_foldl_addLogin h)

/-- C9: the chatters fetch issues at most 20 page requests (and exactly
20 if the provider keeps returning a cursor, so it terminates anyway),
every non-final request was preceded by a returned cursor (it stops as
soon as the cursor is absent), the collected logins form a duplicate
free set of non-empty lowercased-and-trimmed provider logins, and the
page size requested is at most 1000. -/
theorem fetchChatters_bounded (pages : Nat → Page) :
    (fetchChatters pages).2 ≤ 20 ∧
    ((∀ k, ((pages k).cursor).isSome) → (fetchChatters pages).2 = 20) ∧
    (∀ k, k + 1 < (fetchChatters pages).2 → ((pages k).cursor).isSome) ∧
    (∀ x ∈ (fetchChatters pages).1,
      ¬(x = "") ∧ ∃ k raw, k < 20 ∧ raw ∈ (pages k).data ∧ x = raw.toLower.trim) ∧
    (fetchChatters pages).1.Nodup ∧
    chattersPageSize ≤ 1000 := by
  refine ⟨fetchChattersLoop_reqs_le pages 0 20 [],
    fun hall => fetchChattersLoop_reqs_all pages hall 0 20 [], ?_, ?_,
    fetchChattersLoop_nodup pages 0 20 List.nodup_nil, Nat.le_refl 1000⟩
  · intro k hk
    simpa using fetchChattersLoop_stops pages 0 20 [] k hk
  · intro x hx
    rcases fetchChattersLoop_mem pages 0 20 [] x hx with hacc | hfound
    · simp at hacc
    · obtain ⟨hxe, k, raw, hk, hraw, hxr⟩ := hfound
      exact ⟨hxe, k, raw, hk, by simpa using hraw, hxr⟩

/-- A concrete provider for the C9 witness: page 0 returns a cursor,
page 1 does not. -/
def pagesW : Nat → Page :=
  fun i => if i = 0 then ⟨["Bob ", ""], some "cur"⟩ else ⟨["alice"], none⟩

/-- Concrete run of C9: two pages are requested, the first because the
provider returned a cursor. -/
theorem fetchChatters_bounded_witness :
    (fetchChatters pagesW).2 ≤ 20 ∧ ((pagesW 0).cursor).isSome = true :=
  ⟨(fetchChatters_bounded pagesW).1,
    (fetchChatters_bounded pagesW).2.2.1 0 (by decide)⟩

/-! ### Claim C5 and C10: eventLeave behaviour -/

/-- C5: when at least one open session exists for `(channel, username)`,
`eventLeave` appends the leave event and closes exactly the open row
with the greatest `joined_at`, setting `left_at = ts` and
`duration_sec = max(0, floor((ts - joined_at)/1000))`, which is never
negative even when `ts < joined_at`. -/
theorem eventLeave_closes_most_recent (st : Store) (u : String) (ts : Int) (c : String)
    {j : Int} (hmax : listMax? (openJoins st.sessions u c) = some j) :
    (eventLeave st u ts c).events = st.events ++ [⟨u, EventKind.leave, ts, c⟩] ∧
    ∃ pre r post, st.sessions = pre ++ r :: post ∧
      (eventLeave st u ts c).sessions = pre ++ closeRow r ts :: post ∧
      isOpenFor r u c = true ∧ r.joined_at = j ∧
      (∀ rr ∈ st.sessions, isOpenFor rr u c = true → rr.joined_at ≤ j) ∧
      (closeRow r ts).left_at = some ts ∧
      (closeRow r ts).duration_sec = some (max 0 ((ts - r.joined_at).fdiv 1000)) ∧
      0 ≤ max 0 ((ts - r.joined_at).fdiv 1000) := by
  refine ⟨rfl, ?_⟩
  have hjmem : j ∈ openJoins st.sessions u c := listMax?_mem hmax
  obtain ⟨pre, r, post, hsplit, hclose, hfor, hjat⟩ := closeFirstOpenAt_split hjmem ts
  refine ⟨pre, r, post, hsplit, ?_, hfor, hjat, ?_, rfl, rfl, le_max_left ..⟩
  · rw [eventLeave]
    rw [hmax]
    exact hclose
  · intro rr hrr hrrfor
    refine listMax?_le hmax rr.joined_at ?_
    rw [openJoins]
    exact List.mem_map.mpr ⟨rr, List.mem_filter.mpr ⟨hrr, hrrfor⟩, rfl⟩

/-- Store used in the C5 witness: one open session joined at 5000. -/
def stW5 : Store := ⟨[], [⟨"alice", 5000, none, none, "ch"⟩]⟩

/-- Concrete run of C5: a leave at ts = 3000, before the join at 5000,
closes the open row and clamps the duration to 0. -/
theorem eventLeave_closes_most_recent_witness :
    (eventLeave stW5 "alice" 3000 "ch").events = [⟨"alice", EventKind.leave, 3000, "ch"⟩] ∧
    (eventLeave stW5 "alice" 3000 "ch").sessions =
      [⟨"alice", 5000, some 3000, some 0, "ch"⟩] := by
  have h := @eventLeave_closes_most_recent stW5 "alice" 3000 "ch" 5000 (by decide)
  refine ⟨h.1.trans (by decide), by decide⟩

/-- C10: when no open session exists for `(channel, username)`, a leave
event row is still appended, and the session table is untouched. -/
theorem eventLeave_without_open_session (st : Store) (u : String) (ts : Int) (c : String)
    (h : openJoins st.sessions u c = []) :
    (eventLeave st u ts c).events = st.events ++ [⟨u, EventKind.leave, ts, c⟩] ∧
    (eventLeave st u ts c).sessions = st.sessions := by
  refine ⟨rfl, ?_⟩
  rw [eventLeave]
  rw [h]
  rfl

/-- Store used in the C10 witness: only a closed session for alice and
an open one for another channel. -/
def stW10 : Store := ⟨[], [⟨"alice", 100, some 200, some 0, "ch"⟩, ⟨"alice", 100, none, none, "other"⟩]⟩

/-- Concrete run of C10: a leave with no matching open session appends
the event and leaves the rows alone. -/
theorem eventLeave_without_open_session_witness :
    (eventLeave stW10 "alice" 900 "ch").events = [⟨"alice", EventKind.leave, 900, "ch"⟩] ∧
    (eventLeave stW10 "alice" 900 "ch").sessions = stW10.sessions := by
  have h := eventLeave_without_open_session stW10 "alice" 900 "ch" (by decide)
  exact ⟨h.1.trans (by decide), h.2⟩

/-! ### Claims C6, C7, C8: enrichment queue -/

theorem enqueueNames_filter_falsy (l us : List String) :
    enqueueNames l (us.filter (fun v => !(v == ""))) = enqueueNames l us := by
  induction us generalizing l with
  | nil => rfl
  | cons u rest ih =>
    rw [List.filter_cons]
    by_cases hu : u == ""
    · have hstep : enqueueNames l (u :: rest) = enqueueNames l rest := by
        rw [enqueueNames, List.foldl_cons, if_pos hu]
        rfl
      simp only [hu, Bool.not_true, Bool.false_eq_true, if_false]
      rw [hstep]
      exact ih l
    · have hstep : enqueueNames l (u :: rest) = enqueueNames (setAdd l u.toLower) rest := by
        rw [enqueueNames, List.foldl_cons, if_neg hu]
        rfl
      have hstep2 : enqueueNames l (u :: rest.filter (fun v => !(v == "")))
          = enqueueNames (setAdd l u.toLower) (rest.filter (fun v => !(v == ""))) := by
        rw [enqueueNames, List.foldl_cons, if_neg hu]
        rfl
      simp only [hu, Bool.not_false, if_true]
      rw [hstep2, hstep]
      exact ih (setAdd l u.toLower)

/-- C6: `enqueue` is an idempotent set insertion: empty names are
ignored, inserted names are lowercased, the pending set stays duplicate
free (so an enqueued name is pending at most once), repeating the whole
insertion changes nothing, and a name enqueued twice occurs exactly once
in the pending set and at most once in the batch handed to the next
drain's profile lookup. -/
theorem enqueue_idempotent (l us : List String) (hl : l.Nodup) (u : String)
    (hu : ¬(u = "")) :
    enqueueNames l (us.filter (fun v => !(v == ""))) = enqueueNames l us ∧
    (∀ x ∈ enqueueNames l us, x ∈ l ∨ ∃ v ∈ us, v ≠ "" ∧ x = v.toLower) ∧
    (enqueueNames l us).Nodup ∧
    enqueueNames (enqueueNames l us) us = enqueueNames l us ∧
    (enqueueNames l [u, u]).count u.toLower = 1 ∧
    (drainBatch (enqueueNames l [u, u])).count u.toLower ≤ 1 ∧
    (u.toLower ∈ drainBatch (enqueueNames l [u, u]) →
      (drainBatch (enqueueNames l [u, u])).count u.toLower = 1) := by
  have hnodup2 : (enqueueNames l [u, u]).Nodup := enqueueNames_nodup hl [u, u]
  have hbn : (drainBatch (enqueueNames l [u, u])).Nodup :=
    (List.take_sublist 50 _).nodup hnodup2
  refine ⟨enqueueNames_filter_falsy l us,
    fun x hx => (mem_enqueueNames l us x).mp hx,
    enqueueNames_nodup hl us,
    enqueueNames_of_subset (fun v hv hvne =>
      (mem_enqueueNames l us v.toLower).mpr (Or.inr ⟨v, hv, hvne, rfl⟩)),
    ?_, ?_, ?_⟩
  · refine List.count_eq_one_of_mem hnodup2 ?_
    exact (mem_enqueueNames l [u, u] u.toLower).mpr
      (Or.inr ⟨u, List.mem_cons_self .., hu, rfl⟩)
  · exact List.nodup_iff_count_le_one.mp hbn u.toLower
  · intro hmem
    exact List.count_eq_one_of_mem hbn hmem

/-- Concrete run of C6: enqueueing the same name twice on an empty
queue pends its lowercase form exactly once; the next drain batch looks
it up at most once. -/
theorem enqueue_idempotent_witness :
    (enqueueNames [] ["Bob", "Bob"]).count "Bob".toLower = 1 ∧
    (drainBatch (enqueueNames [] ["Bob", "Bob"])).count "Bob".toLower ≤ 1 ∧
    enqueueNames (enqueueNames [] ["Bob", "Bob"]) ["Bob", "Bob"]
      = enqueueNames [] ["Bob", "Bob"] := by
  have h := enqueue_idempotent [] ["Bob", "Bob"] List.nodup_nil "Bob" (by decide)
  exact ⟨h.2.2.2.2.1, h.2.2.2.2.2.1, h.2.2.2.1⟩

theorem drainBegin_fires {e : Enricher} (hrun : e.running = false) (hq : ¬(e.queue = [])) :
    drainBegin e =
      some ({ queue := removeBatch e.queue (drainBatch e.queue), running := true },
        drainBatch e.queue) := by
  rw [drainBegin]
  have hlen : (e.queue.length == 0) = false := by
    simp [List.length_eq_zero, hq]
  rw [hrun, hlen]
  rfl

theorem drainFinish_running_queue (e : Enricher) (batch : List String) (env : DrainEnv) :
    (drainFinish e batch env).1.queue = e.queue ∧
    (drainFinish e batch env).1.running = false := by
  rw [drainFinish]
  cases env.usersResult batch with
  | error e2 => exact ⟨rfl, rfl⟩
  | ok users => exact ⟨rfl, rfl⟩

/-- C7: `drain` returns immediately when already running or when the
pending set is empty; otherwise it takes a batch of at most 50 names,
removes them from the pending set before the external lookup, and the
running flag is false on every exit, whatever the batched lookup
returned (including an error).  A name enqueued after the batch was
removed is still pending after the drain finishes. -/
theorem drain_reentrancy_guard (e : Enricher) (env : DrainEnv) :
    (e.running = true → drain e env = (e, [])) ∧
    (e.queue = [] → drain e env = (e, [])) ∧
    (e.running = false → ¬(e.queue = []) →
      drainBegin e =
        some ({ queue := removeBatch e.queue (drainBatch e.queue), running := true },
          drainBatch e.queue) ∧
      (drainBatch e.queue).length ≤ 50 ∧
      (drain e env).1.running = false ∧
      (drain e env).1.queue = removeBatch e.queue (drainBatch e.queue)) ∧
    (∀ q v batch, ¬(v = "") →
      v.toLower ∈ (drainFinish ⟨enqueueNames q [v], true⟩ batch env).1.queue) := by
  refine ⟨?_, ?_, ?_, ?_⟩
  · intro hrun
    rw [drain, drainBegin, hrun]
    rfl
  · intro hq
    rw [drain, drainBegin, hq]
    simp
  · intro hrun hq
    have hbeg := drainBegin_fires hrun hq
    have hdr : drain e env =
        drainFinish { queue := removeBatch e.queue (drainBatch e.queue), running := true }
          (drainBatch e.queue) env := by
      rw [drain, hbeg]
    have hfin := drainFinish_running_queue
      { queue := removeBatch e.queue (drainBatch e.queue), running := true }
      (drainBatch e.queue) env
    refine ⟨hbeg, ?_, ?_, ?_⟩
    · exact le_trans (List.length_take_le ..) (le_refl 50)
    · rw [hdr]
      exact hfin.2
    · rw [hdr]
      exact hfin.1
  · intro q v batch hv
    rw [(drainFinish_running_queue ⟨enqueueNames q [v], true⟩ batch env).1]
    exact (mem_enqueueNames q [v] v.toLower).mpr
      (Or.inr ⟨v, List.mem_cons_self .., hv, rfl⟩)

/-- Environment used in the C7 witness: the batched lookup throws. -/
def envW7 : DrainEnv :=
  ⟨0, fun _ => Except.error ⟨none, "boom"⟩, fun _ => Except.ok none⟩

/-- Concrete run of C7: a failed batched lookup still releases the
reentrancy guard and the batch was already removed from the queue. -/
theorem drain_reentrancy_guard_witness :
    drain ⟨["x"], true⟩ envW7 = (⟨["x"], true⟩, []) ∧
    (drain ⟨["x"], false⟩ envW7).1.running = false ∧
    (drain ⟨["x"], false⟩ envW7).1.queue = removeBatch ["x"] (drainBatch ["x"]) := by
  have h1 := (drain_reentrancy_guard ⟨["x"], true⟩ envW7).1 rfl
  have h3 := (drain_reentrancy_guard ⟨["x"], false⟩ envW7).2.2.1 rfl (by decide)
  exact ⟨h1, h3.2.2.1, h3.2.2.2⟩

/-- C8: when the batched lookup resolves `users`, every resolved user is
upserted: one profile per user, in order; a follower-count failure for
one user only nulls that user's follower count, and each user's profile
depends only on that user's own follower lookup (and the clock), not on
the outcomes of the other users. -/
theorem drain_batch_isolation (e : Enricher) (env : DrainEnv) (users : List UserInfo)
    (hrun : e.running = false) (hq : ¬(e.queue = []))
    (hok : env.usersResult (drainBatch e.queue) = Except.ok users) :
    (drain e env).2 = users.map (processUser env) ∧
    (drain e env).2.length = users.length ∧
    (∀ u ∈ users, ∃ p ∈ (drain e env).2,
      p.username = (u.login.getD "").toLower ∧
      p.follower_count = (match env.followerOf u.id with
        | Except.ok cnt => cnt
        | Except.error _ => none)) ∧
    (∀ envB : DrainEnv, ∀ u : UserInfo, envB.now = env.now →
      envB.followerOf u.id = env.followerOf u.id →
      processUser envB u = processUser env u) := by
  have hdr : drain e env =
      drainFinish { queue := removeBatch e.queue (drainBatch e.queue), running := true }
        (drainBatch e.queue) env := by
    rw [drain, drainBegin_fires hrun hq]
  have hsnd : (drain e env).2 = users.map (processUser env) := by
    rw [hdr, drainFinish, hok]
  refine ⟨hsnd, by rw [hsnd, List.length_map], ?_, ?_⟩
  · intro u hu
    refine ⟨processUser env u, ?_, rfl, rfl⟩
    rw [hsnd]
    exact List.mem_map.mpr ⟨u, hu, rfl⟩
  · intro envB u hnow hfol
    rw [processUser, processUser, hnow, hfol]

/-- Users and environment for the C8 witness: three users, the second
one's follower lookup throws. -/
def usersW8 : List UserInfo :=
  [⟨some "1", some "Ann", none, none, none⟩,
   ⟨some "2", some "bert", none, none, none⟩,
   ⟨some "3", some "Cid", none, none, none⟩]

def envW8 : DrainEnv :=
  ⟨7, fun _ => Except.ok usersW8,
   fun oid => if oid == some "2" then Except.error ⟨some 500, "f"⟩ else Except.ok (some 42)⟩

/-- Concrete run of C8: all three users receive profile rows; only the
second has a null follower count. -/
theorem drain_batch_isolation_witness :
    (drain ⟨["ann", "bert", "cid"], false⟩ envW8).2.length = 3 ∧
    ((drain ⟨["ann", "bert", "cid"], false⟩ envW8).2.map Profile.follower_count)
      = [some 42, none, some 42] := by
  have h := drain_batch_isolation ⟨["ann", "bert", "cid"], false⟩ envW8 usersW8
    rfl (by decide) rfl
  exact ⟨h.2.1.trans (by decide), by rw [h.1]; decide⟩

/-! ### Claim C4: ensureFreshToken -/

/-- C4: `ensureFreshToken` is a no-op with no network call when there is
no (truthy) refresh token or recorded expiry, or when the current time
is more than 60 s before the expiry; otherwise it performs exactly one
refresh exchange and, on success, replaces the access token, keeps the
old refresh token unless a new non-empty one was returned, replaces the
scopes when returned, sets the expiry to now plus the returned lifetime
(in ms), and persists the credentials. -/
theorem ensureFreshToken_contract (a : Auth) (now : Int) (refresh : Except TwitchError Refreshed) :
    ((truthy a.refreshToken = false ∨ intTruthy a.tokenExpiresAt = false) →
      ensureFreshToken a now refresh = ([], Except.ok a)) ∧
    (∀ exp, a.tokenExpiresAt = some exp → now < exp - 60000 →
      ensureFreshToken a now refresh = ([], Except.ok a)) ∧
    (truthy a.refreshToken = true → intTruthy a.tokenExpiresAt = true →
      ∀ exp, a.tokenExpiresAt = some exp → ¬(now < exp - 60000) →
      (∀ r, refresh = Except.ok r →
        ensureFreshToken a now refresh =
          ([Effect.refreshCall, Effect.persist], Except.ok (applyRefresh a now r)) ∧
        (applyRefresh a now r).token = some r.access_token ∧
        (applyRefresh a now r).tokenExpiresAt = some (now + (r.expires_in.getD 0) * 1000) ∧
        (r.refresh_token = none → (applyRefresh a now r).refreshToken = a.refreshToken) ∧
        (∀ x, r.refresh_token = some x → ¬(x = "") →
          (applyRefresh a now r).refreshToken = some x) ∧
        (∀ s, r.scope = some s → (applyRefresh a now r).tokenScopes = s) ∧
        (r.scope = none → (applyRefresh a now r).tokenScopes = a.tokenScopes) ∧
        (applyRefresh a now r).current = a.current ∧
        [Effect.refreshCall, Effect.persist].count Effect.refreshCall = 1) ∧
      (∀ e, refresh = Except.error e →
        ensureFreshToken a now refresh = ([Effect.refreshCall], Except.error e))) := by
  refine ⟨?_, ?_, ?_⟩
  · intro hfalsy
    rw [ensureFreshToken.eq_def]
    rcases hfalsy with h | h
    · rw [h]
      rfl
    · rw [h]
      simp
  · intro exp hexp hlt
    rw [ensureFreshToken.eq_def]
    by_cases hguard : (truthy a.refreshToken = false || intTruthy a.tokenExpiresAt = false) = true
    · rw [if_pos hguard]
    · rw [if_neg hguard]
      rw [if_pos (by rw [hexp]; exact hlt)]
  · intro htr hte exp hexp hnlt
    have hguard : (truthy a.refreshToken = false || intTruthy a.tokenExpiresAt = false) = false := by
      rw [htr, hte]
      rfl
    constructor
    · intro r hr
      refine ⟨?_, rfl, rfl, ?_, ?_, ?_, ?_, rfl, rfl⟩
      · rw [ensureFreshToken.eq_def, hguard]
        rw [if_neg (show ¬((false : Bool) = true) by simp)]
        rw [if_neg (by rw [hexp]; exact hnlt)]
        rw [hr]
      · intro hnone
        rw [applyRefresh, hnone]
      · intro x hx hxne
        rw [applyRefresh, hx]
        simp [hxne]
      · intro s hs
        rw [applyRefresh, hs]
      · intro hnone
        rw [applyRefresh, hnone]
    · intro e he
      rw [ensureFreshToken.eq_def, hguard]
      rw [if_neg (show ¬((false : Bool) = true) by simp)]
      rw [if_neg (by rw [hexp]; exact hnlt)]
      rw [he]

/-- Auth states for the C4 witness: one with a far-future expiry, one
expired. -/
def aW4skip : Auth :=
  ⟨some "t", some "r", some 99999999, some "m", some "me", [], some "b", some "ch",
    [], none, none⟩

def aW4go : Auth :=
  ⟨some "t", some "r", some 1000, some "m", some "me", [], some "b", some "ch",
    [], none, none⟩

def rW4 : Refreshed := ⟨"newtok", some "newref", some ["s1"], some 3600⟩

/-- Concrete runs of C4: a far-future expiry skips the refresh; an
expired token triggers exactly one exchange and updates the expiry. -/
theorem ensureFreshToken_contract_witness :
    ensureFreshToken aW4skip 0 (Except.ok rW4) = ([], Except.ok aW4skip) ∧
    ensureFreshToken aW4go 500000 (Except.ok rW4) =
      ([Effect.refreshCall, Effect.persist], Except.ok (applyRefresh aW4go 500000 rW4)) ∧
    (applyRefresh aW4go 500000 rW4).tokenExpiresAt = some (500000 + 3600 * 1000) := by
  have h1 := (ensureFreshToken_contract aW4skip 0 (Except.ok rW4)).2.1 99999999 rfl (by decide)
  have h2 := ((ensureFreshToken_contract aW4go 500000 (Except.ok rW4)).2.2 rfl rfl
    1000 rfl (by decide)).1 rW4 rfl
  exact ⟨h1, h2.1, h2.2.2.1.trans (by decide)⟩

/-! ### Claims C2, C3: the reconciliation tick -/

theorem ensureFreshToken_ok_fields {a : Auth} {now : Int}
    {refresh : Except TwitchError Refreshed} {effs : List Effect} {a1 : Auth}
    (h : ensureFreshToken a now refresh = (effs, Except.ok a1)) :
    a1.current = a.current ∧ a1.broadcasterLogin = a.broadcasterLogin ∧
    a1.lastError = a.lastError ∧ a1.lastPollAt = a.lastPollAt := by
  rw [ensureFreshToken.eq_def] at h
  by_cases h1 : (truthy a.refreshToken = false || intTruthy a.tokenExpiresAt = false) = true
  · rw [if_pos h1] at h
    injection h with he hv
    injection hv with ha
    rw [← ha]
    exact ⟨rfl, rfl, rfl, rfl⟩
  · rw [if_neg h1] at h
    by_cases h2 : now < a.tokenExpiresAt.getD 0 - 60000
    · rw [if_pos h2] at h
      injection h with he hv
      injection hv with ha
      rw [← ha]
      exact ⟨rfl, rfl, rfl, rfl⟩
    · rw [if_neg h2] at h
      cases refresh with
      | ok r =>
        simp only at h
        injection h with he hv
        injection hv with ha
        rw [← ha]
        exact ⟨rfl, rfl, rfl, rfl⟩
      | error e =>
        simp only at h
        injection h with he hv
        injection hv

theorem tickAttempt_ok_fields {a0 : Auth} {now : Int}
    {refresh1 : Except TwitchError Refreshed} {fetch : Except TwitchError (List String)}
    {effs : List Effect} {a1 : Auth} {next : List String}
    (h : tickAttempt a0 now refresh1 fetch = (effs, Except.ok (a1, next))) :
    a1.current = a0.current ∧ a1.broadcasterLogin = a0.broadcasterLogin ∧
    a1.lastError = a0.lastError ∧ a1.lastPollAt = a0.lastPollAt := by
  rw [tickAttempt.eq_def] at h
  cases hef : ensureFreshToken a0 now refresh1 with
  | mk effs0 res =>
    rw [hef] at h
    cases res with
    | error e =>
      simp only at h
      injection h with he hv
      injection hv
    | ok a2 =>
      cases fetch with
      | error e =>
        simp only at h
        injection h with he hv
        injection hv
      | ok next2 =>
        simp only at h
        injection h with he hv
        injection hv with hp
        injection hp with ha hn
        rw [← ha]
        exact ensureFreshToken_ok_fields hef

theorem tickAttempt_err_fields {a0 : Auth} {now : Int}
    {refresh1 : Except TwitchError Refreshed} {fetch : Except TwitchError (List String)}
    {effs : List Effect} {ae : Auth} {err : TwitchError}
    (h : tickAttempt a0 now refresh1 fetch = (effs, Except.error (ae, err))) :
    ae.current = a0.current ∧ ae.broadcasterLogin = a0.broadcasterLogin ∧
    ae.lastError = a0.lastError ∧ ae.lastPollAt = a0.lastPollAt := by
  rw [tickAttempt.eq_def] at h
  cases hef : ensureFreshToken a0 now refresh1 with
  | mk effs0 res =>
    rw [hef] at h
    cases res with
    | error e =>
      simp only at h
      injection h with he hv
      injection hv with hp
      injection hp with ha hn
      rw [← ha]
      exact ⟨rfl, rfl, rfl, rfl⟩
    | ok a2 =>
      cases fetch with
      | error e =>
        simp only at h
        injection h with he hv
        injection hv with hp
        injection hp with ha hn
        rw [← ha]
        exact ensureFreshToken_ok_fields hef
      | ok next2 =>
        simp only at h
        injection h with he hv
        injection hv

theorem queue_if_collapse (q p n : List String) :
    (if (joinedOf p n).length != 0 || (leftOf p n).length != 0
      then enqueueNames q (joinedOf p n) else q) = enqueueNames q (joinedOf p n) := by
  by_cases hc : ((joinedOf p n).length != 0 || (leftOf p n).length != 0) = true
  · rw [if_pos hc]
  · rw [if_neg hc]
    have hj : joinedOf p n = [] := by
      simp at hc
      exact hc.1
    rw [hj]
    rfl

theorem tickOne_ok_eq {clientId : Option String} {w : World} {env : TickEnv}
    {effs : List Effect} {a1 : Auth} {next : List String}
    (hpre : tickPreconds clientId w.auth = true)
    (hatt : tickAttempt { w.auth with lastPollAt := some env.now } env.now env.refresh1 env.fetch
      = (effs, Except.ok (a1, next))) :
    tickOne clientId w env = ⟨⟨{ a1 with current := next, lastError := none },
      tickDiffStore w.store a1.current next env.now (a1.broadcasterLogin.getD ""),
      enqueueNames w.queue (joinedOf a1.current next)⟩, effs, []⟩ := by
  rw [tickOne, if_neg (by rw [hpre]; simp), hatt]
  have hred : tickContinue w env.now (effs, Except.ok (a1, next)) env.refresh2 =
      ⟨⟨{ a1 with current := next, lastError := none },
        tickDiffStore w.store a1.current next env.now (a1.broadcasterLogin.getD ""),
        if (joinedOf a1.current next).length != 0 || (leftOf a1.current next).length != 0
        then enqueueNames w.queue (joinedOf a1.current next) else w.queue⟩, effs, []⟩ := rfl
  rw [hred, queue_if_collapse]

theorem tickOne_err_eq {clientId : Option String} {w : World} {env : TickEnv}
    {effs : List Effect} {ae : Auth} {err : TwitchError}
    (hpre : tickPreconds clientId w.auth = true)
    (hatt : tickAttempt { w.auth with lastPollAt := some env.now } env.now env.refresh1 env.fetch
      = (effs, Except.error (ae, err))) :
    tickOne clientId w env =
      ⟨{ w with auth := (catchTick ae err env.refresh2 env.now).1 }, effs,
        (catchTick ae err env.refresh2 env.now).2⟩ := by
  rw [tickOne, if_neg (by rw [hpre]; simp), hatt]
  rfl

theorem catchTick_spec (a : Auth) (err : TwitchError) (r2 : Except TwitchError Refreshed)
    (now : Int) :
    (catchTick a err r2 now).1.current = a.current ∧
    ((err.status == some 401 && truthy a.refreshToken) = true →
      (catchTick a err r2 now).2.count Effect.refreshCall = 1 ∧
      (∀ r, r2 = Except.ok r → (catchTick a err r2 now).1.lastError = a.lastError) ∧
      (∀ e2, r2 = Except.error e2 → (catchTick a err r2 now).1.lastError = some e2.msg)) ∧
    ((err.status == some 401 && truthy a.refreshToken) = false →
      (catchTick a err r2 now).1.lastError = some err.msg ∧
      (catchTick a err r2 now).2 = []) := by
  by_cases hc : (err.status == some 401 && truthy a.refreshToken) = true
  · cases r2 with
    | ok r =>
      have h1 : catchTick a err (Except.ok r) now =
          (applyRefresh a now r, [Effect.refreshCall, Effect.persist]) := by
        rw [catchTick.eq_def, if_pos hc]
      refine ⟨?_, ?_, ?_⟩
      · rw [h1]
        rfl
      · intro h401
        refine ⟨?_, ?_, ?_⟩
        · rw [h1]
          rfl
        · intro r3 hr3
          rw [h1]
          rfl
        · intro e2 he2
          exact Except.noConfusion he2
      · intro hfalse
        rw [hc] at hfalse
        exact Bool.noConfusion hfalse
    | error e2 =>
      have h1 : catchTick a err (Except.error e2) now =
          ({ a with lastError := some e2.msg }, [Effect.refreshCall]) := by
        rw [catchTick.eq_def, if_pos hc]
      refine ⟨?_, ?_, ?_⟩
      · rw [h1]
      · intro h401
        refine ⟨?_, ?_, ?_⟩
        · rw [h1]
          rfl
        · intro r3 hr3
          exact Except.noConfusion hr3
        · intro e3 he3
          injection he3 with he4
          rw [h1, ← he4]
      · intro hfalse
        rw [hc] at hfalse
        exact Bool.noConfusion hfalse
  · have hcf : (err.status == some 401 && truthy a.refreshToken) = false :=
      Bool.eq_false_iff.mpr hc
    have h1 : catchTick a err r2 now = ({ a with lastError := some err.msg }, []) := by
      rw [catchTick.eq_def, if_neg hc]
    refine ⟨?_, ?_, ?_⟩
    · rw [h1]
    · intro htrue
      rw [hcf] at htrue
      exact Bool.noConfusion htrue
    · intro hother
      exact ⟨by rw [h1], by rw [h1]⟩

/-- C3: when the refresh or the fetch throws, the tick leaves the store,
the queue and the presence set unchanged; with a 401 and a refresh token
the catch block attempts exactly one refresh — success records no error
(the previous last error is kept), failure records the refresh error;
any other error is recorded directly with no refresh attempt.  The tick
always returns a result (no exception escapes). -/
theorem tick_error_handling (clientId : Option String) (w : World) (env : TickEnv)
    (effs : List Effect) (ae : Auth) (err : TwitchError)
    (hpre : tickPreconds clientId w.auth = true)
    (hatt : tickAttempt { w.auth with lastPollAt := some env.now } env.now env.refresh1 env.fetch
      = (effs, Except.error (ae, err))) :
    (tickOne clientId w env).world.auth.current = w.auth.current ∧
    (tickOne clientId w env).world.store = w.store ∧
    (tickOne clientId w env).world.queue = w.queue ∧
    ((err.status == some 401 && truthy ae.refreshToken) = true →
      (tickOne clientId w env).catchEffects.count Effect.refreshCall = 1 ∧
      (∀ r, env.refresh2 = Except.ok r →
        (tickOne clientId w env).world.auth.lastError = w.auth.lastError) ∧
      (∀ e2, env.refresh2 = Except.error e2 →
        (tickOne clientId w env).world.auth.lastError = some e2.msg)) ∧
    ((err.status == some 401 && truthy ae.refreshToken) = false →
      (tickOne clientId w env).world.auth.lastError = some err.msg ∧
      (tickOne clientId w env).catchEffects = []) := by
  have heq := tickOne_err_eq hpre hatt
  have hfields := tickAttempt_err_fields hatt
  have hspec := catchTick_spec ae err env.refresh2 env.now
  rw [heq]
  refine ⟨?_, rfl, rfl, ?_, ?_⟩
  · rw [show ({ w with auth := (catchTick ae err env.refresh2 env.now).1 } : World).auth
        = (catchTick ae err env.refresh2 env.now).1 from rfl]
    rw [hspec.1, hfields.1]
  · intro h401
    refine ⟨(hspec.2.1 h401).1, ?_, ?_⟩
    · intro r hr
      rw [show ({ w with auth := (catchTick ae err env.refresh2 env.now).1 } : World).auth
          = (catchTick ae err env.refresh2 env.now).1 from rfl]
      rw [(hspec.2.1 h401).2.1 r hr, hfields.2.2.1]
    · intro e2 he2
      rw [show ({ w with auth := (catchTick ae err env.refresh2 env.now).1 } : World).auth
          = (catchTick ae err env.refresh2 env.now).1 from rfl]
      rw [(hspec.2.1 h401).2.2 e2 he2]
  · intro hother
    refine ⟨?_, (hspec.2.2 hother).2⟩
    rw [show ({ w with auth := (catchTick ae err env.refresh2 env.now).1 } : World).auth
        = (catchTick ae err env.refresh2 env.now).1 from rfl]
    rw [(hspec.2.2 hother).1]

/-- C2: a successful tick appends exactly one join event and one fresh
open session row (both timestamped with the tick timestamp) per username
in `next − previousSet`, one leave event (closing a session) per
username in `previousSet − next`, enqueues exactly the joined usernames
for enrichment, and afterwards the presence set equals `next` and the
last error is null. -/
theorem tick_success_commits (clientId : Option String) (w : World) (env : TickEnv)
    (effs : List Effect) (a1 : Auth) (next : List String)
    (hpre : tickPreconds clientId w.auth = true)
    (hatt : tickAttempt { w.auth with lastPollAt := some env.now } env.now env.refresh1 env.fetch
      = (effs, Except.ok (a1, next)))
    (hnext : next.Nodup)
    (hinv : StoreInv w.store a1.current (a1.broadcasterLogin.getD "")) :
    (tickOne clientId w env).world.auth.current = next ∧
    (tickOne clientId w env).world.auth.lastError = none ∧
    (tickOne clientId w env).world.queue = enqueueNames w.queue (joinedOf a1.current next) ∧
    (tickOne clientId w env).world.store.events =
      w.store.events
        ++ (joinedOf a1.current next).map
            (fun u => ⟨u, EventKind.join, env.now, a1.broadcasterLogin.getD ""⟩)
        ++ (leftOf a1.current next).map
            (fun u => ⟨u, EventKind.leave, env.now, a1.broadcasterLogin.getD ""⟩) ∧
    (tickOne clientId w env).world.store.sessions.length =
      w.store.sessions.length + (joinedOf a1.current next).length ∧
    (∀ u, u ∈ openUsers (tickOne clientId w env).world.store.sessions
        (a1.broadcasterLogin.getD "") ↔ u ∈ next) ∧
    (∀ u ∈ joinedOf a1.current next,
      (⟨u, env.now, none, none, a1.broadcasterLogin.getD ""⟩ : SessionRow)
        ∈ (tickOne clientId w env).world.store.sessions) ∧
    (∀ u, (u ∈ joinedOf a1.current next ↔ u ∈ next ∧ u ∉ a1.current) ∧
          (u ∈ leftOf a1.current next ↔ u ∈ a1.current ∧ u ∉ next)) ∧
    (joinedOf a1.current next).Nodup ∧
    (leftOf a1.current next).Nodup ∧
    a1.current = w.auth.current := by
  have heq := tickOne_ok_eq hpre hatt
  rw [heq]
  have hinv2 := tickDiffStore_inv hinv hnext env.now
  refine ⟨rfl, rfl, rfl, events_tickDiffStore .., sessions_length_tickDiffStore ..,
    hinv2.2.2, fun u hu => joined_row_mem_tickDiffStore hu,
    fun u => ⟨mem_joinedOf .., mem_leftOf ..⟩,
    hnext.filter _, hinv.2.1.filter _, (tickAttempt_ok_fields hatt).1⟩

/-- Tenant, world and environment for the C2 witness: alice present,
snapshot becomes {alice, carol}. -/
def authW2 : Auth :=
  ⟨some "t", none, none, some "m", some "me", [], some "b", some "ch",
    ["alice"], none, none⟩

def wW2 : World := ⟨authW2, ⟨[], [⟨"alice", 500, none, none, "ch"⟩]⟩, []⟩

def rW2 : Refreshed := ⟨"x", none, none, none⟩

def envW2 : TickEnv := ⟨1000, Except.ok rW2, Except.ok ["alice", "carol"], Except.ok rW2⟩

def a0W2 : Auth := { authW2 with lastPollAt := some 1000 }

/-- Concrete run of C2: carol joins, nobody leaves; presence becomes
{alice, carol}, one session row is added, the error is cleared and
exactly the joined names are enqueued. -/
theorem tick_success_commits_witness :
    (tickOne (some "cid") wW2 envW2).world.auth.current = ["alice", "carol"] ∧
    (tickOne (some "cid") wW2 envW2).world.auth.lastError = none ∧
    (tickOne (some "cid") wW2 envW2).world.store.sessions.length = 2 ∧
    (tickOne (some "cid") wW2 envW2).world.queue
      = enqueueNames [] (joinedOf ["alice"] ["alice", "carol"]) := by
  have h := tick_success_commits (some "cid") wW2 envW2 [] a0W2 ["alice", "carol"]
    rfl rfl (by decide) ⟨by decide, by decide, fun u => Iff.rfl⟩
  exact ⟨h.1, h.2.1, h.2.2.2.2.1.trans (by decide), h.2.2.1⟩

/-- Tenant, world and environments for the C3 witness. -/
def authW3 : Auth :=
  ⟨some "t", some "r", some 99999999, some "m", some "me", [], some "b", some "ch",
    ["alice"], none, none⟩

def wW3 : World := ⟨authW3, ⟨[], [⟨"alice", 500, none, none, "ch"⟩]⟩, []⟩

def a0W3 : Auth := { authW3 with lastPollAt := some 0 }

def envW3a : TickEnv :=
  ⟨0, Except.ok rW2, Except.error ⟨some 401, "unauthorized"⟩, Except.ok rW2⟩

def envW3b : TickEnv :=
  ⟨0, Except.ok rW2, Except.error ⟨some 500, "boom"⟩, Except.error ⟨none, "refreshfail"⟩⟩

/-- Concrete runs of C3: a 401 fetch error with a successful recovery
refresh keeps the presence set, store, queue and last error untouched
while attempting exactly one refresh; a 500 fetch error records the
error message. -/
theorem tick_error_handling_witness :
    (tickOne (some "cid") wW3 envW3a).world.auth.current = ["alice"] ∧
    (tickOne (some "cid") wW3 envW3a).world.store = wW3.store ∧
    (tickOne (some "cid") wW3 envW3a).world.queue = [] ∧
    (tickOne (some "cid") wW3 envW3a).world.auth.lastError = none ∧
    (tickOne (some "cid") wW3 envW3a).catchEffects.count Effect.refreshCall = 1 ∧
    (tickOne (some "cid") wW3 envW3b).world.auth.lastError = some "boom" := by
  have hA := tick_error_handling (some "cid") wW3 envW3a [] a0W3
    ⟨some 401, "unauthorized"⟩ rfl rfl
  have hB := tick_error_handling (some "cid") wW3 envW3b [] a0W3
    ⟨some 500, "boom"⟩ rfl rfl
  have h401 : ((⟨some 401, "unauthorized"⟩ : TwitchError).status == some 401
      && truthy a0W3.refreshToken) = true := by decide
  have h500 : ((⟨some 500, "boom"⟩ : TwitchError).status == some 401
      && truthy a0W3.refreshToken) = false := by decide
  refine ⟨hA.1, hA.2.1, hA.2.2.1, ?_, (hA.2.2.2.1 h401).1, (hB.2.2.2.2 h500).1⟩
  exact (hA.2.2.2.1 h401).2.1 rW2 rfl

end Tracker
